import Mathlib

/-!
Verification development for the question parser of the
`question-generator` repository.

The repository's algorithmic core is `parse_questions_from_text`, which
appears twice: once in `src/utils/parser.py` (split into helper functions)
and once, inlined, in `src/models/parser.py`.  Both walk a raw LLM response
with Python `re` patterns, cut it into question blocks, and extract
question text, options, correct answer and explanation per block.

This file shallowly embeds those functions over `List Char`.  Python's
`re` module is modelled by a small backtracking matcher (`matR`) over an
explicit regex AST; each Python pattern string is transcribed to one AST
constant next to a comment quoting the original pattern.  The matcher
follows Python's leftmost search, alternation order, greedy/lazy
quantifier preference, zero-width lookahead, capture groups, `re.DOTALL`
(so `.` matches every character) and `re.IGNORECASE` (ASCII case folding,
which is faithful for the ASCII inputs this parser consumes).
-/

/-- The ASCII whitespace characters recognised by Python's `\s` and by
`str.strip()` (space, tab, newline, carriage return, vertical tab,
form feed). -/
def wsChars : List Char := [' ', '\t', '\n', '\r', Char.ofNat 11, Char.ofNat 12]

/-- `isSpacePy c` holds when Python treats `c` as whitespace. -/
def isSpacePy (c : Char) : Bool := wsChars.any (fun w => w == c)

/-- Python's `str.strip()`: drop whitespace from both ends. -/
def pyStrip (s : List Char) : List Char :=
  ((s.dropWhile isSpacePy).reverse.dropWhile isSpacePy).reverse

/-- ASCII case swap: `'a'..'z'` to upper, `'A'..'Z'` to lower, rest fixed. -/
def swapCase (c : Char) : Char :=
  if 'a' ≤ c ∧ c ≤ 'z' then Char.ofNat (c.toNat - 32)
  else if 'A' ≤ c ∧ c ≤ 'Z' then Char.ofNat (c.toNat + 32)
  else c

/-- Does text character `a` match pattern character `b`?  With the
IGNORECASE flag set, `a` may also be the case-swapped form of `b`
(ASCII case folding). -/
def chMatch (ic : Bool) (a b : Char) : Bool :=
  a == b || (ic && a == swapCase b)

/-- Character-class membership, honouring IGNORECASE. -/
def inCls (ic : Bool) (a : Char) (cs : List Char) : Bool :=
  cs.any (fun b => chMatch ic a b)

/-- Regex AST.  Only the constructs used by the parser's eight patterns:
literal characters, character classes, `.` under DOTALL, concatenation,
alternation, greedy/lazy star, `?`, zero-width lookahead `(?=..)`,
capture groups, and `$`. -/
inductive RE where
  | eps
  | ch (c : Char)
  | cls (cs : List Char)
  | dot
  | cat (a b : RE)
  | alt (a b : RE)
  | quest (a : RE)
  | star (a : RE) (lz : Bool)
  | look (a : RE)
  | grp (n : Nat) (a : RE)
  | eol
deriving DecidableEq, Repr

/-- Captured groups: group number paired with the captured characters.
The most recent capture of a group is the head occurrence. -/
abbrev Caps := List (Nat × List Char)

/-- Continuations for the CPS matcher: next position and captures so far. -/
abbrev MCont := Nat → Caps → Option (Nat × Caps)

/-- Backtracking regex matcher in continuation-passing style, modelling
Python `re` matching at a fixed start position.  `fuel` bounds the depth
of the call tree; every recursive call spends one unit, and the top-level
wrappers pass enough fuel for the patterns and inputs at hand.  The
success order mirrors Python: alternation tries the left branch first,
`?` and greedy `*` try consuming first, lazy `*?` tries the continuation
first, and a starred body must advance the position for the loop to
continue (Python stops a quantifier loop on an empty repeat).
Lookahead is zero-width and, as none of the parser's lookaheads contain
groups, its captures are discarded.  `$` matches at the end of input or
just before a final newline, as in Python without MULTILINE. -/
def matR (ic : Bool) (s : List Char) (fuel : Nat) :
    RE → Nat → Caps → MCont → Option (Nat × Caps) :=
  Nat.rec (motive := fun _ => RE → Nat → Caps → MCont → Option (Nat × Caps))
    (fun _ _ _ _ => none)
    (fun _ ih r i cp k =>
      match r with
      | .eps => k i cp
      | .ch c =>
        match s.get? i with
        | some d => if chMatch ic d c then k (i+1) cp else none
        | none => none
      | .cls cs =>
        match s.get? i with
        | some d => if inCls ic d cs then k (i+1) cp else none
        | none => none
      | .dot =>
        match s.get? i with
        | some _ => k (i+1) cp
        | none => none
      | .cat a b => ih a i cp (fun j cp2 => ih b j cp2 k)
      | .alt a b =>
        match ih a i cp k with
        | some res => some res
        | none => ih b i cp k
      | .quest a =>
        match ih a i cp k with
        | some res => some res
        | none => k i cp
      | .star a lz =>
        if lz then
          match k i cp with
          | some res => some res
          | none => ih a i cp (fun j cp2 =>
              if i < j then ih (.star a lz) j cp2 k else none)
        else
          match ih a i cp (fun j cp2 =>
              if i < j then ih (.star a lz) j cp2 k else none) with
          | some res => some res
          | none => k i cp
      | .look a =>
        match ih a i cp (fun j cp2 => some (j, cp2)) with
        | some _ => k i cp
        | none => none
      | .grp n a => ih a i cp (fun j cp2 => k j ((n, (s.drop i).take (j - i)) :: cp2))
      | .eol =>
        if i = s.length ∨ (i + 1 = s.length ∧ s.get? i = some '\n') then k i cp
        else none)
    fuel

/-- Fuel budget that comfortably exceeds the matcher's call depth for the
parser's patterns on an input of the given length. -/
def fuelFor (s : List Char) : Nat := 100 * s.length + 1000

/-- Scan for the leftmost match at a position `≥ i`, as Python `re.search`
does: try each start position in increasing order and take the first
(backtracking-preferred) match.  Returns start, end, and captures. -/
def searchFrom (ic : Bool) (s : List Char) (r : RE) : Nat → Nat → Option (Nat × Nat × Caps) :=
  Nat.rec (motive := fun _ => Nat → Option (Nat × Nat × Caps))
    (fun _ => none)
    (fun _ ih i =>
      match matR ic s (fuelFor s) r i [] (fun j cp => some (j, cp)) with
      | some (j, cp) => some (i, j, cp)
      | none => if i < s.length then ih (i+1) else none)

/-- Python `re.search`: leftmost match anywhere in `s`. -/
def reSearch (ic : Bool) (s : List Char) (r : RE) : Option (Nat × Nat × Caps) :=
  searchFrom ic s r (s.length + 1) 0

/-- Python `re.finditer`/`re.findall` scanning: repeatedly take the
leftmost match from the current position and resume at its end
(advancing one extra position after an empty match). -/
def findAllFrom (ic : Bool) (s : List Char) (r : RE) : Nat → Nat → List Caps :=
  Nat.rec (motive := fun _ => Nat → List Caps)
    (fun _ => [])
    (fun _ ih i =>
      match searchFrom ic s r (s.length + 1 - i) i with
      | some (st, en, cp) => cp :: ih (if st < en then en else en + 1)
      | none => [])

/-- Python `re.findall`, returning each match's captures. -/
def reFindAll (ic : Bool) (s : List Char) (r : RE) : List Caps :=
  findAllFrom ic s r (s.length + 2) 0

/-- `match.group(n)` for a match's captures; an unparticipating group is
rendered as the empty string (such groups do not occur on the success
paths of the parser's patterns). -/
def getGrp (n : Nat) (cp : Caps) : List Char := (cp.lookup n).getD []

/-- Literal word: `lits "ab".data` is the regex `ab`. -/
def lits (cs : List Char) : RE := cs.foldr (fun c r => RE.cat (.ch c) r) .eps

/-- `\d`. -/
def digitCls : RE := .cls "0123456789".data

/-- `\s`. -/
def wsCls : RE := .cls wsChars

/-- `r+` as `r r*` (greedy). -/
def rePlus (r : RE) : RE := .cat r (.star r false)

/-- `\s*`. -/
def wsStar : RE := .star wsCls false

/-- `\s+`. -/
def wsPlus : RE := rePlus wsCls

/-- `\d+`. -/
def dPlus : RE := rePlus digitCls

/-- The header alternation of `pattern1` in `_extract_question_blocks`:
`(?:\d+\.|#\d+|Question\s+\d+:)`. -/
def hdr1 : RE :=
  .alt (.cat dPlus (.ch '.'))
    (.alt (.cat (.ch '#') dPlus)
      (.cat (lits "Question".data) (.cat wsPlus (.cat dPlus (.ch ':')))))

/-- `pattern1 = r'(?:\d+\.|#\d+|Question\s+\d+:)\s*(.*?)(?=(?:\d+\.|#\d+|Question\s+\d+:)|$)'`
(compiled with `re.DOTALL`). -/
def pattern1 : RE :=
  .cat hdr1 (.cat wsStar (.cat (.grp 1 (.star .dot true)) (.look (.alt hdr1 .eol))))

/-- The header of `pattern2`: `(?:\d+\.\s*Question:?)`. -/
def hdr2 : RE :=
  .cat dPlus (.cat (.ch '.') (.cat wsStar (.cat (lits "Question".data) (.quest (.ch ':')))))

/-- `pattern2 = r'(?:\d+\.\s*Question:?)\s*(.*?)(?=(?:\d+\.\s*Question:?)|$)'`
(compiled with `re.DOTALL`). -/
def pattern2 : RE :=
  .cat hdr2 (.cat wsStar (.cat (.grp 1 (.star .dot true)) (.look (.alt hdr2 .eol))))

/-- The lookahead of `q_pattern`: `(?=\s*(?:A[\.\)]|A\s+\)))`. -/
def qLook : RE :=
  .cat wsStar
    (.alt (.cat (.ch 'A') (.cls ['.', ')']))
      (.cat (.ch 'A') (.cat wsPlus (.ch ')'))))

/-- `q_pattern = r'(?:Question)?:?\s*(.*?)(?=\s*(?:A[\.\)]|A\s+\)))'`
(compiled with `re.DOTALL | re.IGNORECASE`). -/
def qPattern : RE :=
  .cat (.quest (lits "Question".data))
    (.cat (.quest (.ch ':'))
      (.cat wsStar (.cat (.grp 1 (.star .dot true)) (.look qLook))))

/-- `(?:Correct\s+Answer):` as used in option-pattern lookaheads. -/
def corrAnsLit : RE :=
  .cat (lits "Correct".data) (.cat wsPlus (.cat (lits "Answer".data) (.ch ':')))

/-- Terminator lookahead of the first option pattern:
`(?=(?:[A-D][\.\)])|(?:Correct\s+Answer):|$)`. -/
def optTerm1 : RE :=
  .alt (.cat (.cls "ABCD".data) (.cls ['.', ')'])) (.alt corrAnsLit .eol)

/-- First option pattern
`r'([A-D])[\.\)]\s+(.*?)(?=(?:[A-D][\.\)])|(?:Correct\s+Answer):|$)'`
(compiled with `re.DOTALL | re.IGNORECASE`). -/
def optP1 : RE :=
  .cat (.grp 1 (.cls "ABCD".data))
    (.cat (.cls ['.', ')'])
      (.cat wsPlus (.cat (.grp 2 (.star .dot true)) (.look optTerm1))))

/-- Terminator lookahead of the second option pattern:
`(?=(?:[A-D]\s*[\.\)])|(?:Correct\s+Answer):|$)`. -/
def optTerm2 : RE :=
  .alt (.cat (.cls "ABCD".data) (.cat wsStar (.cls ['.', ')']))) (.alt corrAnsLit .eol)

/-- Second option pattern
`r'([A-D])\s*[\.\)]\s+(.*?)(?=(?:[A-D]\s*[\.\)])|(?:Correct\s+Answer):|$)'`
(compiled with `re.DOTALL | re.IGNORECASE`). -/
def optP2 : RE :=
  .cat (.grp 1 (.cls "ABCD".data))
    (.cat wsStar
      (.cat (.cls ['.', ')'])
        (.cat wsPlus (.cat (.grp 2 (.star .dot true)) (.look optTerm2)))))

/-- `r'(?:Correct\s+Answer):\s*([A-D])'` (DOTALL, IGNORECASE). -/
def corrP1 : RE :=
  .cat (lits "Correct".data)
    (.cat wsPlus
      (.cat (lits "Answer".data)
        (.cat (.ch ':') (.cat wsStar (.grp 1 (.cls "ABCD".data))))))

/-- `r'(?:Answer):\s*([A-D])'` (DOTALL, IGNORECASE). -/
def corrP2 : RE :=
  .cat (lits "Answer".data) (.cat (.ch ':') (.cat wsStar (.grp 1 (.cls "ABCD".data))))

/-- `r'(?:Correct):\s*([A-D])'` (DOTALL, IGNORECASE). -/
def corrP3 : RE :=
  .cat (lits "Correct".data) (.cat (.ch ':') (.cat wsStar (.grp 1 (.cls "ABCD".data))))

/-- `r'(?:Explanation):\s*(.*?)(?=$)'` (DOTALL, IGNORECASE). -/
def explP1 : RE :=
  .cat (lits "Explanation".data)
    (.cat (.ch ':') (.cat wsStar (.cat (.grp 1 (.star .dot true)) (.look .eol))))

/-- `r'(?:Explanation):\s*(.*?)(?=\d+\.\s*Question:|$)'` (DOTALL, IGNORECASE). -/
def explP2 : RE :=
  .cat (lits "Explanation".data)
    (.cat (.ch ':')
      (.cat wsStar
        (.cat (.grp 1 (.star .dot true))
          (.look (.alt (.cat dPlus (.cat (.ch '.') (.cat wsStar (lits "Question:".data)))) .eol)))))

/-! ## The `src/utils/parser.py` pipeline -/

/-- One raw block of the positional fallback in
`_extract_question_blocks`: with `avg_length = len(text) // k`, the
Python slice `text[max(0, i*avg_length - 100) : min(len(text), (i+1)*avg_length + 100)]`
(`Nat` subtraction models the `max(0, ...)` clamp). -/
def fallbackSlice (text : List Char) (k i : Nat) : List Char :=
  (text.drop (i * (text.length / k) - 100)).take
    (min text.length ((i + 1) * (text.length / k) + 100) - (i * (text.length / k) - 100))

/-- `_extract_question_blocks(text, expected_count)`: `re.findall` with
`pattern1`, else `pattern2`, else — when `expected_count` is truthy —
the positional fallback producing exactly `expected_count` slices. -/
def extract_question_blocks (text : List Char) (expected_count : Option Nat) :
    List (List Char) :=
  if (reFindAll false text pattern1) ≠ [] then
    (reFindAll false text pattern1).map (getGrp 1)
  else if (reFindAll false text pattern2) ≠ [] then
    (reFindAll false text pattern2).map (getGrp 1)
  else
    match expected_count with
    | some k => if k ≠ 0 then (List.range k).map (fallbackSlice text k) else []
    | none => []

/-- The prefixes stripped from the front of a question text:
`["question:", "1.", "2.", "3.", "4.", "5."]`. -/
def cleanPrefs : List (List Char) :=
  ["question:".data, "1.".data, "2.".data, "3.".data, "4.".data, "5.".data]

/-- One pass of the cleaning loop: Python's
`if question_text.lower().startswith(p): question_text = question_text[len(p):].strip()`. -/
def cleanStep (qt : List Char) (p : List Char) : List Char :=
  if p.isPrefixOf (qt.map Char.toLower) then pyStrip (qt.drop p.length) else qt

/-- The sequential cleaning loop over all prefixes. -/
def cleanQuestion (qt : List Char) : List Char := cleanPrefs.foldl cleanStep qt

/-- Python's `first_line.startswith(('A)', 'B)', 'C)', 'D)'))`. -/
def startsOptMarker (fl : List Char) : Bool :=
  "A)".data.isPrefixOf fl || "B)".data.isPrefixOf fl ||
  "C)".data.isPrefixOf fl || "D)".data.isPrefixOf fl

/-- Python's `block.split('\n')[0].strip()`: the stripped first line. -/
def firstLineOf (block : List Char) : List Char :=
  pyStrip (block.takeWhile (fun c => c ≠ '\n'))

/-- `_extract_question_text(block)`: search `q_pattern`; on a match take
the stripped first group, otherwise fall back to the block's stripped
first line unless it is empty or starts with `A)`, `B)`, `C)` or `D)`;
finally run the prefix-cleaning loop. -/
def extract_question_text (block : List Char) : List Char :=
  cleanQuestion
    (match reSearch true block qPattern with
     | some (_, _, cp) => pyStrip (getGrp 1 cp)
     | none =>
       if firstLineOf block ≠ [] ∧ ¬ (startsOptMarker (firstLineOf block) = true) then
         firstLineOf block
       else [])

/-- Format one option match as Python's `f"{letter}) {text.strip()}"`. -/
def fmtOpt (cp : Caps) : List Char :=
  getGrp 1 cp ++ ')' :: ' ' :: pyStrip (getGrp 2 cp)

/-- `_extract_options(block)`: try the two option patterns in order; the
first one with any match wins outright. -/
def extract_options (block : List Char) : List (List Char) :=
  if (reFindAll true block optP1) ≠ [] then (reFindAll true block optP1).map fmtOpt
  else if (reFindAll true block optP2) ≠ [] then (reFindAll true block optP2).map fmtOpt
  else []

/-- The marker loop of `_extract_correct_answer`: search
`Correct Answer:`, `Answer:`, `Correct:` in order, upper-casing the
stripped first group of the first match.  `none` models Python `None`;
the caller treats `none` and `some ""` alike (both falsy) and falls back
to `options[0][0]`, the first character of the first option string
(`headD` never supplies its default there, every option built by
`_extract_options` being non-empty). -/
def correctMarker (block : List Char) : Option (List Char) :=
  match reSearch true block corrP1 with
  | some (_, _, cp) => some ((pyStrip (getGrp 1 cp)).map Char.toUpper)
  | none =>
    match reSearch true block corrP2 with
    | some (_, _, cp) => some ((pyStrip (getGrp 1 cp)).map Char.toUpper)
    | none =>
      match reSearch true block corrP3 with
      | some (_, _, cp) => some ((pyStrip (getGrp 1 cp)).map Char.toUpper)
      | none => none

/-- `_extract_correct_answer(block, options)`: the marker loop, then the
`if not correct_answer and options:` fallback to `options[0][0]`. -/
def extract_correct_answer (block : List Char) (options : List (List Char)) :
    Option (List Char) :=
  match correctMarker block, options with
  | none, o :: _ => some [o.headD '?']
  | some [], o :: _ => some [o.headD '?']
  | ca, _ => ca

/-- `_extract_explanation(block)`: the two explanation patterns in order;
absent means the empty string. -/
def extract_explanation (block : List Char) : List Char :=
  match reSearch true block explP1 with
  | some (_, _, cp) => pyStrip (getGrp 1 cp)
  | none =>
    match reSearch true block explP2 with
    | some (_, _, cp) => pyStrip (getGrp 1 cp)
    | none => []

/-- The padding option for slot `i`: `f"{'ABCD'[i]}) [Missing option]"`. -/
def missingOpt (i : Nat) : List Char :=
  ['A', 'B', 'C', 'D'].getD i '?' :: ") [Missing option]".data

/-- The `while len(options) < 4` padding loop of
`_validate_and_complete_options`, unrolled: each iteration appends the
placeholder labelled `'ABCD'[len(options)]`, so the appended labels are
exactly the positions `options.length, …, 3`. -/
def padOptions (options : List (List Char)) : List (List Char) :=
  options ++ ((List.range 4).drop options.length).map missingOpt

/-- `_validate_and_complete_options(options)`: pad to four, keep the
first four. -/
def validate_and_complete_options (options : List (List Char)) : List (List Char) :=
  (padOptions options).take 4

/-- The structured question record (`ParsedQuestion` in the spec): the
dictionary built by `_parse_single_question`. -/
structure ParsedQuestion where
  question : List Char
  options : List (List Char)
  correct_answer : List Char
  explanation : List Char
deriving DecidableEq, Repr

/-- `_parse_single_question(block, i)`: reject when the question text is
empty or fewer than two options were extracted; otherwise assemble the
record.  The `if not correct_answer: correct_answer = "A"` default maps
a falsy answer (Python `None` or `""`) to `"A"`.  The `try/except` of the
original cannot fire in this total model (its only reachable raise,
indexing `options[0][0]` on an empty string, is impossible for options
built by `_extract_options`).  The block index parameter only feeds log
output and is dropped.  `answerDefault` is the
`if not correct_answer: correct_answer = "A"` line: Python `None` or
`""` (both falsy) become `"A"`. -/
def answerDefault (ca : Option (List Char)) : List Char :=
  match ca with
  | none => ['A']
  | some [] => ['A']
  | some v => v

def parse_single_question (block : List Char) : Option ParsedQuestion :=
  if extract_question_text block = [] then none
  else if (extract_options block).length < 2 then none
  else
    some ⟨extract_question_text block,
          validate_and_complete_options (extract_options block),
          answerDefault (extract_correct_answer block (extract_options block)),
          extract_explanation block⟩

/-- The per-block step of the assembly loop in
`parse_questions_from_text` (`src/utils/parser.py`): parse the block and
append the record unless a record with the same question text was already
accepted. -/
def parseStep (qs : List ParsedQuestion) (block : List Char) : List ParsedQuestion :=
  match parse_single_question block with
  | some pq => if qs.any (fun q => q.question == pq.question) then qs else qs ++ [pq]
  | none => qs

/-- The deduplicate-and-append step of the assembly loop, acting on an
already-parsed record: skip it when a record with the same question text
was already accepted, otherwise append it (`parseStep` is this step
composed with `_parse_single_question`). -/
def dedupStep (qs : List ParsedQuestion) (pq : ParsedQuestion) : List ParsedQuestion :=
  if qs.any (fun q => q.question == pq.question) then qs else qs ++ [pq]

/-- `parse_questions_from_text(text, expected_count)` from
`src/utils/parser.py`: extract blocks, parse each in order,
deduplicate by exact question text. -/
def parse_questions_from_text (text : List Char) (expected_count : Option Nat) :
    List ParsedQuestion :=
  (extract_question_blocks text expected_count).foldl parseStep []

/-! ## The `src/models/parser.py` pipeline

`parse_questions_from_text` in `src/models/parser.py` is the same
algorithm with every helper inlined into one function.  It is embedded
separately below, following the inlined file: the loop body is
`modelsStep`.  The only structural differences from the utils version
are the placement of the validation test (`len(options) >= 2 and
question_text`, checked after extracting the correct answer and
explanation) and the absence of the final `correct_answer = "A"`
default.  At the append site `correct_answer` is an `Option` that is
provably `some` of a non-empty string, so `getD []` below only names a
value for an unreachable branch (Python would store `None` there). -/

/-- The loop body of `parse_questions_from_text` in
`src/models/parser.py`, for one block.  Python's local variables
(`question_text`, `options`, `correct_answer`, `explanation`) are
inlined at each use site. -/
def modelsStep (questions : List ParsedQuestion) (block : List Char) :
    List ParsedQuestion :=
  if cleanQuestion
      (match reSearch true block qPattern with
       | some (_, _, cp) => pyStrip (getGrp 1 cp)
       | none =>
         if firstLineOf block ≠ [] ∧ ¬ (startsOptMarker (firstLineOf block) = true) then
           firstLineOf block
         else []) = [] then questions
  else
    if 2 ≤ (if (reFindAll true block optP1) ≠ [] then (reFindAll true block optP1).map fmtOpt
        else if (reFindAll true block optP2) ≠ [] then (reFindAll true block optP2).map fmtOpt
        else []).length ∧
       cleanQuestion
      (match reSearch true block qPattern with
       | some (_, _, cp) => pyStrip (getGrp 1 cp)
       | none =>
         if firstLineOf block ≠ [] ∧ ¬ (startsOptMarker (firstLineOf block) = true) then
           firstLineOf block
         else []) ≠ [] then
      (if (questions.any fun q => q.question ==
          cleanQuestion
      (match reSearch true block qPattern with
       | some (_, _, cp) => pyStrip (getGrp 1 cp)
       | none =>
         if firstLineOf block ≠ [] ∧ ¬ (startsOptMarker (firstLineOf block) = true) then
           firstLineOf block
         else [])) = true then questions
       else
         questions ++
           [⟨cleanQuestion
      (match reSearch true block qPattern with
       | some (_, _, cp) => pyStrip (getGrp 1 cp)
       | none =>
         if firstLineOf block ≠ [] ∧ ¬ (startsOptMarker (firstLineOf block) = true) then
           firstLineOf block
         else []),
             ((if (reFindAll true block optP1) ≠ [] then (reFindAll true block optP1).map fmtOpt
               else if (reFindAll true block optP2) ≠ [] then (reFindAll true block optP2).map fmtOpt
               else []) ++
              ((List.range 4).drop
                (if (reFindAll true block optP1) ≠ [] then (reFindAll true block optP1).map fmtOpt
                 else if (reFindAll true block optP2) ≠ [] then (reFindAll true block optP2).map fmtOpt
                 else []).length).map missingOpt).take 4,
             (match
                (match reSearch true block corrP1 with
                 | some (_, _, cp) => some ((pyStrip (getGrp 1 cp)).map Char.toUpper)
                 | none =>
                   match reSearch true block corrP2 with
                   | some (_, _, cp) => some ((pyStrip (getGrp 1 cp)).map Char.toUpper)
                   | none =>
                     match reSearch true block corrP3 with
                     | some (_, _, cp) => some ((pyStrip (getGrp 1 cp)).map Char.toUpper)
                     | none => none),
                (if (reFindAll true block optP1) ≠ [] then (reFindAll true block optP1).map fmtOpt
                 else if (reFindAll true block optP2) ≠ [] then (reFindAll true block optP2).map fmtOpt
                 else []) with
              | none, o :: _ => some [o.headD '?']
              | some [], o :: _ => some [o.headD '?']
              | ca, _ => ca).getD [],
             (match reSearch true block explP1 with
              | some (_, _, cp) => pyStrip (getGrp 1 cp)
              | none =>
                match reSearch true block explP2 with
                | some (_, _, cp) => pyStrip (getGrp 1 cp)
                | none => [])⟩])
    else questions

/-- `parse_questions_from_text(text, expected_count)` from
`src/models/parser.py`: the same block segmentation, then the inlined
per-block loop. -/
def parse_questions_from_text_models (text : List Char) (expected_count : Option Nat) :
    List ParsedQuestion :=
  (if (reFindAll false text pattern1) ≠ [] then
     (reFindAll false text pattern1).map (getGrp 1)
   else if (reFindAll false text pattern2) ≠ [] then
     (reFindAll false text pattern2).map (getGrp 1)
   else
     match expected_count with
     | some k =>
       if k ≠ 0 then
         (List.range k).map (fun i =>
           (text.drop (i * (text.length / k) - 100)).take
             (min text.length ((i + 1) * (text.length / k) + 100) -
               (i * (text.length / k) - 100)))
       else []
     | none => []).foldl modelsStep []

/-! ## Predicates for the matcher lemmas -/

/-- `grpsOKb n cs r`: every occurrence of capture group `n` inside `r`
wraps exactly the character class `cs`. -/
def grpsOKb (n : Nat) (cs : List Char) : RE → Bool
  | .grp m a => (if m == n then decide (a = RE.cls cs) else true) && grpsOKb n cs a
  | .cat a b => grpsOKb n cs a && grpsOKb n cs b
  | .alt a b => grpsOKb n cs a && grpsOKb n cs b
  | .quest a => grpsOKb n cs a
  | .star a _ => grpsOKb n cs a
  | .look a => grpsOKb n cs a
  | _ => true

/-- `mustBind n r`: every successful match of `r` records a capture for
group `n` (group `n` lies on every success path, outside quantifiers,
optionals and lookaheads). -/
def mustBind (n : Nat) : RE → Bool
  | .grp m a => (m == n) || mustBind n a
  | .cat a b => mustBind n a || mustBind n b
  | .alt a b => mustBind n a && mustBind n b
  | _ => false

/-- Good capture lists: any recorded value of group `n` is a single
character of the class `cs`. -/
def CapsP (ic : Bool) (n : Nat) (cs : List Char) (cp : Caps) : Prop :=
  ∀ v, cp.lookup n = some v → ∃ c, v = [c] ∧ inCls ic c cs = true

/-- The eight characters the option/answer patterns can capture for
`([A-D])` under IGNORECASE. -/
abbrev Abcd (c : Char) : Prop :=
  c = 'A' ∨ c = 'B' ∨ c = 'C' ∨ c = 'D' ∨ c = 'a' ∨ c = 'b' ∨ c = 'c' ∨ c = 'd'

/-! ## Format-variant scenario (spec §8, scenarios 1–2) -/

/-- The three header styles named by the spec: `1.`, `#1`, `Question 1:`. -/
inductive HeaderStyle where
  | digit
  | hash
  | word
deriving DecidableEq, Repr

/-- The two option delimiter styles: `)` and `.`. -/
inductive DelimStyle where
  | paren
  | dotted
deriving DecidableEq, Repr

/-- Header text of each style. -/
def hdrTxt : HeaderStyle → List Char
  | .digit => "1.".data
  | .hash => "#1".data
  | .word => "Question 1:".data

/-- Delimiter text of each style. -/
def dlTxt : DelimStyle → List Char
  | .paren => ")".data
  | .dotted => ".".data

/-- The canonical scenario content of spec §8, rendered in a given
header and delimiter style. -/
def renderScenario (h : HeaderStyle) (d : DelimStyle) : List Char :=
  hdrTxt h ++ " Sky color?\nA".data ++ dlTxt d ++ " Red\nB".data ++ dlTxt d ++
    " Blue\nCorrect Answer: B\nExplanation: Soot.".data

/-! ## Unfolding equations for the matcher -/

lemma matR_zero (ic : Bool) (s : List Char) (r : RE) (i : Nat) (cp : Caps) (k : MCont) :
    matR ic s 0 r i cp k = none := rfl

lemma matR_eps (ic : Bool) (s : List Char) (f : Nat) (i : Nat) (cp : Caps) (k : MCont) :
    matR ic s (f+1) .eps i cp k = k i cp := rfl

lemma matR_ch (ic : Bool) (s : List Char) (f : Nat) (c : Char) (i : Nat) (cp : Caps) (k : MCont) :
    matR ic s (f+1) (.ch c) i cp k =
      match s.get? i with
      | some d => if chMatch ic d c then k (i+1) cp else none
      | none => none := rfl

lemma matR_cls (ic : Bool) (s : List Char) (f : Nat) (cs : List Char) (i : Nat) (cp : Caps) (k : MCont) :
    matR ic s (f+1) (.cls cs) i cp k =
      match s.get? i with
      | some d => if inCls ic d cs then k (i+1) cp else none
      | none => none := rfl

lemma matR_dot (ic : Bool) (s : List Char) (f : Nat) (i : Nat) (cp : Caps) (k : MCont) :
    matR ic s (f+1) .dot i cp k =
      match s.get? i with
      | some _ => k (i+1) cp
      | none => none := rfl

lemma matR_cat (ic : Bool) (s : List Char) (f : Nat) (a b : RE) (i : Nat) (cp : Caps) (k : MCont) :
    matR ic s (f+1) (.cat a b) i cp k =
      matR ic s f a i cp (fun j cp2 => matR ic s f b j cp2 k) := rfl

lemma matR_alt (ic : Bool) (s : List Char) (f : Nat) (a b : RE) (i : Nat) (cp : Caps) (k : MCont) :
    matR ic s (f+1) (.alt a b) i cp k =
      match matR ic s f a i cp k with
      | some res => some res
      | none => matR ic s f b i cp k := rfl

lemma matR_quest (ic : Bool) (s : List Char) (f : Nat) (a : RE) (i : Nat) (cp : Caps) (k : MCont) :
    matR ic s (f+1) (.quest a) i cp k =
      match matR ic s f a i cp k with
      | some res => some res
      | none => k i cp := rfl

lemma matR_star (ic : Bool) (s : List Char) (f : Nat) (a : RE) (lz : Bool) (i : Nat) (cp : Caps) (k : MCont) :
    matR ic s (f+1) (.star a lz) i cp k =
      if lz then
        match k i cp with
        | some res => some res
        | none => matR ic s f a i cp (fun j cp2 =>
            if i < j then matR ic s f (.star a lz) j cp2 k else none)
      else
        match matR ic s f a i cp (fun j cp2 =>
            if i < j then matR ic s f (.star a lz) j cp2 k else none) with
        | some res => some res
        | none => k i cp := rfl

lemma matR_look (ic : Bool) (s : List Char) (f : Nat) (a : RE) (i : Nat) (cp : Caps) (k : MCont) :
    matR ic s (f+1) (.look a) i cp k =
      match matR ic s f a i cp (fun j cp2 => some (j, cp2)) with
      | some _ => k i cp
      | none => none := rfl

lemma matR_grp (ic : Bool) (s : List Char) (f : Nat) (n : Nat) (a : RE) (i : Nat) (cp : Caps) (k : MCont) :
    matR ic s (f+1) (.grp n a) i cp k =
      matR ic s f a i cp (fun j cp2 => k j ((n, (s.drop i).take (j - i)) :: cp2)) := rfl

lemma matR_eol (ic : Bool) (s : List Char) (f : Nat) (i : Nat) (cp : Caps) (k : MCont) :
    matR ic s (f+1) .eol i cp k =
      if i = s.length ∨ (i + 1 = s.length ∧ s.get? i = some '\n') then k i cp
      else none := rfl

/-- Every success of the matcher is a success of its continuation. -/
lemma matR_post (ic : Bool) (s : List Char) {C : Prop} :
    ∀ (f : Nat) (r : RE) (i : Nat) (cp : Caps) (k : MCont) (res : Nat × Caps),
      matR ic s f r i cp k = some res →
      (∀ j cp2, k j cp2 = some res → C) → C := by
  intro f
  induction f with
  | zero =>
    intro r i cp k res hm _
    rw [matR_zero] at hm
    exact Option.noConfusion hm
  | succ f ih =>
    intro r i cp k res hm hk
    cases r with
    | eps => exact hk _ _ hm
    | ch c =>
      rw [matR_ch] at hm
      cases hd : s.get? i with
      | some d =>
        rw [hd] at hm
        simp only [] at hm
        split_ifs at hm
        exact hk _ _ hm
      | none => rw [hd] at hm; exact Option.noConfusion hm
    | cls cs =>
      rw [matR_cls] at hm
      cases hd : s.get? i with
      | some d =>
        rw [hd] at hm
        simp only [] at hm
        split_ifs at hm
        exact hk _ _ hm
      | none => rw [hd] at hm; exact Option.noConfusion hm
    | dot =>
      rw [matR_dot] at hm
      cases hd : s.get? i with
      | some d => rw [hd] at hm; exact hk _ _ hm
      | none => rw [hd] at hm; exact Option.noConfusion hm
    | cat a b =>
      rw [matR_cat] at hm
      exact ih a i cp _ res hm (fun j cp2 hb => ih b j cp2 k res hb hk)
    | alt a b =>
      rw [matR_alt] at hm
      cases ha : matR ic s f a i cp k with
      | some v =>
        rw [ha] at hm
        cases hm
        exact ih a i cp k res ha hk
      | none =>
        rw [ha] at hm
        exact ih b i cp k res hm hk
    | quest a =>
      rw [matR_quest] at hm
      cases ha : matR ic s f a i cp k with
      | some v =>
        rw [ha] at hm
        cases hm
        exact ih a i cp k res ha hk
      | none =>
        rw [ha] at hm
        exact hk _ _ hm
    | star a lz =>
      rw [matR_star] at hm
      cases lz with
      | true =>
        rw [if_pos rfl] at hm
        cases hki : k i cp with
        | some v =>
          rw [hki] at hm
          cases hm
          exact hk _ _ hki
        | none =>
          rw [hki] at hm
          refine ih a i cp _ res hm ?_
          intro j cp2 hko
          by_cases hij : i < j
          · rw [if_pos hij] at hko
            exact ih (.star a true) j cp2 k res hko hk
          · rw [if_neg hij] at hko
            exact Option.noConfusion hko
      | false =>
        rw [if_neg (by simp)] at hm
        cases hb : matR ic s f a i cp (fun j cp2 =>
            if i < j then matR ic s f (.star a false) j cp2 k else none) with
        | some v =>
          rw [hb] at hm
          cases hm
          refine ih a i cp _ res hb ?_
          intro j cp2 hko
          by_cases hij : i < j
          · rw [if_pos hij] at hko
            exact ih (.star a false) j cp2 k res hko hk
          · rw [if_neg hij] at hko
            exact Option.noConfusion hko
        | none =>
          rw [hb] at hm
          exact hk _ _ hm
    | look a =>
      rw [matR_look] at hm
      cases hb : matR ic s f a i cp (fun j cp2 => some (j, cp2)) with
      | some v => rw [hb] at hm; exact hk _ _ hm
      | none => rw [hb] at hm; exact Option.noConfusion hm
    | grp n a =>
      rw [matR_grp] at hm
      exact ih a i cp _ res hm (fun j cp2 hko => hk _ _ hko)
    | eol =>
      rw [matR_eol] at hm
      split_ifs at hm
      exact hk _ _ hm

/-- Consing any binding preserves presence of a binding for `n`. -/
lemma lookup_cons_isSome {n m : Nat} {v : List Char} {cp : Caps}
    (h : (cp.lookup n).isSome = true) :
    ((List.lookup n ((m, v) :: cp)).isSome) = true := by
  cases hnm : (n == m) <;> simp [List.lookup, hnm, h]

/-- If position `i` of `s` holds `d`, the one-character slice at `i` is `[d]`. -/
lemma take_one_drop : ∀ (s : List Char) (i : Nat) (d : Char),
    s.get? i = some d → (s.drop i).take 1 = [d] := by
  intro s
  induction s with
  | nil => intro i d h; simp [List.get?] at h
  | cons c t ih =>
    intro i d h
    cases i with
    | zero => simp only [List.get?] at h; cases h; simp
    | succ i => simp only [List.get?] at h; simpa using ih i d h

/-- A binding for `n` in the incoming captures survives to the result. -/
lemma matR_pres (ic : Bool) (s : List Char) (n : Nat) :
    ∀ (f : Nat) (r : RE) (i : Nat) (cp : Caps) (k : MCont) (res : Nat × Caps),
      matR ic s f r i cp k = some res →
      (cp.lookup n).isSome = true →
      (∀ j cp2, (cp2.lookup n).isSome = true → k j cp2 = some res →
        (res.2.lookup n).isSome = true) →
      (res.2.lookup n).isSome = true := by
  intro f
  induction f with
  | zero =>
    intro r i cp k res hm _ _
    rw [matR_zero] at hm
    exact Option.noConfusion hm
  | succ f ih =>
    intro r i cp k res hm hcp hk
    cases r with
    | eps => exact hk _ _ hcp hm
    | ch c =>
      rw [matR_ch] at hm
      cases hd : s.get? i with
      | some d =>
        rw [hd] at hm
        simp only [] at hm
        split_ifs at hm
        exact hk _ _ hcp hm
      | none => rw [hd] at hm; exact Option.noConfusion hm
    | cls cs =>
      rw [matR_cls] at hm
      cases hd : s.get? i with
      | some d =>
        rw [hd] at hm
        simp only [] at hm
        split_ifs at hm
        exact hk _ _ hcp hm
      | none => rw [hd] at hm; exact Option.noConfusion hm
    | dot =>
      rw [matR_dot] at hm
      cases hd : s.get? i with
      | some d => rw [hd] at hm; exact hk _ _ hcp hm
      | none => rw [hd] at hm; exact Option.noConfusion hm
    | cat a b =>
      rw [matR_cat] at hm
      exact ih a i cp _ res hm hcp
        (fun j cp2 hcp2 hb => ih b j cp2 k res hb hcp2 hk)
    | alt a b =>
      rw [matR_alt] at hm
      cases ha : matR ic s f a i cp k with
      | some v => rw [ha] at hm; cases hm; exact ih a i cp k res ha hcp hk
      | none => rw [ha] at hm; exact ih b i cp k res hm hcp hk
    | quest a =>
      rw [matR_quest] at hm
      cases ha : matR ic s f a i cp k with
      | some v => rw [ha] at hm; cases hm; exact ih a i cp k res ha hcp hk
      | none => rw [ha] at hm; exact hk _ _ hcp hm
    | star a lz =>
      rw [matR_star] at hm
      cases lz with
      | true =>
        rw [if_pos rfl] at hm
        cases hki : k i cp with
        | some v => rw [hki] at hm; cases hm; exact hk _ _ hcp hki
        | none =>
          rw [hki] at hm
          refine ih a i cp _ res hm hcp ?_
          intro j cp2 hcp2 hko
          by_cases hij : i < j
          · rw [if_pos hij] at hko
            exact ih (.star a true) j cp2 k res hko hcp2 hk
          · rw [if_neg hij] at hko
            exact Option.noConfusion hko
      | false =>
        rw [if_neg (by simp)] at hm
        cases hb : matR ic s f a i cp (fun j cp2 =>
            if i < j then matR ic s f (.star a false) j cp2 k else none) with
        | some v =>
          rw [hb] at hm
          cases hm
          refine ih a i cp _ res hb hcp ?_
          intro j cp2 hcp2 hko
          by_cases hij : i < j
          · rw [if_pos hij] at hko
            exact ih (.star a false) j cp2 k res hko hcp2 hk
          · rw [if_neg hij] at hko
            exact Option.noConfusion hko
        | none => rw [hb] at hm; exact hk _ _ hcp hm
    | look a =>
      rw [matR_look] at hm
      cases hb : matR ic s f a i cp (fun j cp2 => some (j, cp2)) with
      | some v => rw [hb] at hm; exact hk _ _ hcp hm
      | none => rw [hb] at hm; exact Option.noConfusion hm
    | grp m a =>
      rw [matR_grp] at hm
      exact ih a i cp _ res hm hcp
        (fun j cp2 hcp2 hko => hk _ _ (lookup_cons_isSome hcp2) hko)
    | eol =>
      rw [matR_eol] at hm
      split_ifs at hm
      exact hk _ _ hcp hm

/-- When group `n` lies on every success path, the result binds it. -/
lemma matR_bind (ic : Bool) (s : List Char) (n : Nat) :
    ∀ (f : Nat) (r : RE) (i : Nat) (cp : Caps) (k : MCont) (res : Nat × Caps),
      mustBind n r = true →
      matR ic s f r i cp k = some res →
      (∀ j cp2, (cp2.lookup n).isSome = true → k j cp2 = some res →
        (res.2.lookup n).isSome = true) →
      (res.2.lookup n).isSome = true := by
  intro f
  induction f with
  | zero =>
    intro r i cp k res _ hm _
    rw [matR_zero] at hm
    exact Option.noConfusion hm
  | succ f ih =>
    intro r i cp k res hb hm hk
    cases r with
    | eps => simp [mustBind] at hb
    | ch c => simp [mustBind] at hb
    | cls cs => simp [mustBind] at hb
    | dot => simp [mustBind] at hb
    | star a lz => simp [mustBind] at hb
    | quest a => simp [mustBind] at hb
    | look a => simp [mustBind] at hb
    | eol => simp [mustBind] at hb
    | grp m a =>
      rw [matR_grp] at hm
      simp only [mustBind] at hb
      by_cases hmn : (m == n) = true
      · refine matR_post ic s f a i cp _ res hm ?_
        intro j cp2 hko
        refine hk j ((m, (s.drop i).take (j - i)) :: cp2) ?_ hko
        have h1 : m = n := by simpa using hmn
        have hnm : (n == m) = true := by simp [h1]
        simp [List.lookup, hnm]
      · have hba : mustBind n a = true := by
          rcases Bool.or_eq_true_iff.mp hb with h | h
          · exact absurd h hmn
          · exact h
        refine ih a i cp _ res hba hm ?_
        intro j cp2 hcp2 hko
        exact hk j _ (lookup_cons_isSome hcp2) hko
    | cat a b =>
      rw [matR_cat] at hm
      simp only [mustBind] at hb
      by_cases hba : mustBind n a = true
      · refine ih a i cp _ res hba hm ?_
        intro j cp2 hcp2 hko
        exact matR_pres ic s n f b j cp2 k res hko hcp2 hk
      · have hbb : mustBind n b = true := by
          rcases Bool.or_eq_true_iff.mp hb with h | h
          · exact absurd h hba
          · exact h
        refine matR_post ic s f a i cp _ res hm ?_
        intro j cp2 hko
        exact ih b j cp2 k res hbb hko hk
    | alt a b =>
      rw [matR_alt] at hm
      simp only [mustBind, Bool.and_eq_true] at hb
      cases ha : matR ic s f a i cp k with
      | some v => rw [ha] at hm; cases hm; exact ih a i cp k res hb.1 ha hk
      | none => rw [ha] at hm; exact ih b i cp k res hb.2 hm hk

/-- Consing a binding for a different group preserves `CapsP`. -/
lemma capsP_cons_ne {ic : Bool} {n : Nat} {cs : List Char} {m : Nat} {v : List Char}
    {cp : Caps} (hnm : (n == m) = false) (h : CapsP ic n cs cp) :
    CapsP ic n cs ((m, v) :: cp) := by
  intro w hw
  simp only [List.lookup, hnm] at hw
  exact h w hw

/-- Any value captured for group `n` is one character of class `cs`,
provided every occurrence of group `n` in the pattern wraps exactly
that class. -/
lemma matR_caps (ic : Bool) (s : List Char) (n : Nat) (cs : List Char) :
    ∀ (f : Nat) (r : RE) (i : Nat) (cp : Caps) (k : MCont) (res : Nat × Caps),
      grpsOKb n cs r = true →
      matR ic s f r i cp k = some res →
      CapsP ic n cs cp →
      (∀ j cp2, CapsP ic n cs cp2 → k j cp2 = some res → CapsP ic n cs res.2) →
      CapsP ic n cs res.2 := by
  intro f
  induction f with
  | zero =>
    intro r i cp k res _ hm _ _
    rw [matR_zero] at hm
    exact Option.noConfusion hm
  | succ f ih =>
    intro r i cp k res hg hm hcp hk
    cases r with
    | eps => exact hk _ _ hcp hm
    | ch c =>
      rw [matR_ch] at hm
      cases hd : s.get? i with
      | some d =>
        rw [hd] at hm
        simp only [] at hm
        split_ifs at hm
        exact hk _ _ hcp hm
      | none => rw [hd] at hm; exact Option.noConfusion hm
    | cls cs2 =>
      rw [matR_cls] at hm
      cases hd : s.get? i with
      | some d =>
        rw [hd] at hm
        simp only [] at hm
        split_ifs at hm
        exact hk _ _ hcp hm
      | none => rw [hd] at hm; exact Option.noConfusion hm
    | dot =>
      rw [matR_dot] at hm
      cases hd : s.get? i with
      | some d => rw [hd] at hm; exact hk _ _ hcp hm
      | none => rw [hd] at hm; exact Option.noConfusion hm
    | cat a b =>
      rw [matR_cat] at hm
      simp only [grpsOKb, Bool.and_eq_true] at hg
      exact ih a i cp _ res hg.1 hm hcp
        (fun j cp2 hcp2 hb => ih b j cp2 k res hg.2 hb hcp2 hk)
    | alt a b =>
      rw [matR_alt] at hm
      simp only [grpsOKb, Bool.and_eq_true] at hg
      cases ha : matR ic s f a i cp k with
      | some v => rw [ha] at hm; cases hm; exact ih a i cp k res hg.1 ha hcp hk
      | none => rw [ha] at hm; exact ih b i cp k res hg.2 hm hcp hk
    | quest a =>
      rw [matR_quest] at hm
      simp only [grpsOKb] at hg
      cases ha : matR ic s f a i cp k with
      | some v => rw [ha] at hm; cases hm; exact ih a i cp k res hg ha hcp hk
      | none => rw [ha] at hm; exact hk _ _ hcp hm
    | star a lz =>
      rw [matR_star] at hm
      have hga : grpsOKb n cs a = true := by simpa [grpsOKb] using hg
      cases lz with
      | true =>
        rw [if_pos rfl] at hm
        cases hki : k i cp with
        | some v => rw [hki] at hm; cases hm; exact hk _ _ hcp hki
        | none =>
          rw [hki] at hm
          refine ih a i cp _ res hga hm hcp ?_
          intro j cp2 hcp2 hko
          by_cases hij : i < j
          · rw [if_pos hij] at hko
            exact ih (.star a true) j cp2 k res (by simpa [grpsOKb] using hga) hko hcp2 hk
          · rw [if_neg hij] at hko
            exact Option.noConfusion hko
      | false =>
        rw [if_neg (by simp)] at hm
        cases hb : matR ic s f a i cp (fun j cp2 =>
            if i < j then matR ic s f (.star a false) j cp2 k else none) with
        | some v =>
          rw [hb] at hm
          cases hm
          refine ih a i cp _ res hga hb hcp ?_
          intro j cp2 hcp2 hko
          by_cases hij : i < j
          · rw [if_pos hij] at hko
            exact ih (.star a false) j cp2 k res (by simpa [grpsOKb] using hga) hko hcp2 hk
          · rw [if_neg hij] at hko
            exact Option.noConfusion hko
        | none => rw [hb] at hm; exact hk _ _ hcp hm
    | look a =>
      rw [matR_look] at hm
      cases hb : matR ic s f a i cp (fun j cp2 => some (j, cp2)) with
      | some v => rw [hb] at hm; exact hk _ _ hcp hm
      | none => rw [hb] at hm; exact Option.noConfusion hm
    | grp m a =>
      rw [matR_grp] at hm
      simp only [grpsOKb, Bool.and_eq_true] at hg
      by_cases hmn : (m == n) = true
      · have ha : a = RE.cls cs := by
          have h1 := hg.1
          rw [if_pos hmn] at h1
          exact of_decide_eq_true h1
        subst ha
        cases f with
        | zero => rw [matR_zero] at hm; exact Option.noConfusion hm
        | succ f2 =>
          rw [matR_cls] at hm
          cases hd : s.get? i with
          | some d =>
            rw [hd] at hm
            simp only [] at hm
            split_ifs at hm with hin
            have hslice : (s.drop i).take (i + 1 - i) = [d] := by
              have h1 : i + 1 - i = 1 := by omega
              rw [h1]
              exact take_one_drop s i d hd
            rw [hslice] at hm
            refine hk _ _ ?_ hm
            intro v hv
            have hnm : (n == m) = true := by
              have h1 : m = n := by simpa using hmn
              simp [h1]
            simp only [List.lookup, hnm] at hv
            exact ⟨d, by simpa using hv.symm, hin⟩
          | none => rw [hd] at hm; exact Option.noConfusion hm
      · have hnm : (n == m) = false := by
          have h1 : ¬ m = n := by simpa using hmn
          exact beq_eq_false_iff_ne.mpr (Ne.symm h1)
        refine ih a i cp _ res hg.2 hm hcp ?_
        intro j cp2 hcp2 hko
        exact hk _ _ (capsP_cons_ne hnm hcp2) hko
    | eol =>
      rw [matR_eol] at hm
      split_ifs at hm
      exact hk _ _ hcp hm

lemma searchFrom_zero (ic : Bool) (s : List Char) (r : RE) (i : Nat) :
    searchFrom ic s r 0 i = none := rfl

lemma searchFrom_succ (ic : Bool) (s : List Char) (r : RE) (f : Nat) (i : Nat) :
    searchFrom ic s r (f+1) i =
      match matR ic s (fuelFor s) r i [] (fun j cp => some (j, cp)) with
      | some (j, cp) => some (i, j, cp)
      | none => if i < s.length then searchFrom ic s r f (i+1) else none := rfl

lemma findAllFrom_zero (ic : Bool) (s : List Char) (r : RE) (i : Nat) :
    findAllFrom ic s r 0 i = [] := rfl

lemma findAllFrom_succ (ic : Bool) (s : List Char) (r : RE) (f : Nat) (i : Nat) :
    findAllFrom ic s r (f+1) i =
      match searchFrom ic s r (s.length + 1 - i) i with
      | some (st, en, cp) => cp :: findAllFrom ic s r f (if st < en then en else en + 1)
      | none => [] := rfl

/-- The empty capture list satisfies `CapsP`. -/
lemma capsP_nil (ic : Bool) (n : Nat) (cs : List Char) : CapsP ic n cs [] := by
  intro v hv
  simp [List.lookup] at hv

/-- Captures of a `searchFrom` match satisfy `CapsP`. -/
lemma searchFrom_caps (ic : Bool) (s : List Char) (r : RE) (n : Nat) (cs : List Char) :
    ∀ (f : Nat) (i st en : Nat) (cp : Caps),
      searchFrom ic s r f i = some (st, en, cp) → grpsOKb n cs r = true →
      CapsP ic n cs cp := by
  intro f
  induction f with
  | zero =>
    intro i st en cp hs _
    rw [searchFrom_zero] at hs
    exact Option.noConfusion hs
  | succ f ih =>
    intro i st en cp hs hg
    rw [searchFrom_succ] at hs
    cases hmr : matR ic s (fuelFor s) r i [] (fun j cp => some (j, cp)) with
    | some v =>
      rw [hmr] at hs
      cases hs
      have := matR_caps ic s n cs (fuelFor s) r i [] _ v hg hmr (capsP_nil ic n cs)
        (fun j cp2 hcp2 hko => by cases hko; exact hcp2)
      exact this
    | none =>
      rw [hmr] at hs
      split_ifs at hs
      exact ih (i+1) st en cp hs hg

/-- A `searchFrom` match binds group `n` when the pattern must bind it. -/
lemma searchFrom_bind (ic : Bool) (s : List Char) (r : RE) (n : Nat) :
    ∀ (f : Nat) (i st en : Nat) (cp : Caps),
      searchFrom ic s r f i = some (st, en, cp) → mustBind n r = true →
      (cp.lookup n).isSome = true := by
  intro f
  induction f with
  | zero =>
    intro i st en cp hs _
    rw [searchFrom_zero] at hs
    exact Option.noConfusion hs
  | succ f ih =>
    intro i st en cp hs hb
    rw [searchFrom_succ] at hs
    cases hmr : matR ic s (fuelFor s) r i [] (fun j cp => some (j, cp)) with
    | some v =>
      rw [hmr] at hs
      cases hs
      exact matR_bind ic s n (fuelFor s) r i [] _ v hb hmr
        (fun j cp2 hcp2 hko => by cases hko; exact hcp2)
    | none =>
      rw [hmr] at hs
      split_ifs at hs
      exact ih (i+1) st en cp hs hb

/-- Captures of an `reSearch` match satisfy `CapsP`. -/
lemma reSearch_caps {ic : Bool} {s : List Char} {r : RE} {n : Nat} {cs : List Char}
    {st en : Nat} {cp : Caps} (hs : reSearch ic s r = some (st, en, cp))
    (hg : grpsOKb n cs r = true) : CapsP ic n cs cp :=
  searchFrom_caps ic s r n cs (s.length + 1) 0 st en cp hs hg

/-- An `reSearch` match binds group `n` when the pattern must bind it. -/
lemma reSearch_bind {ic : Bool} {s : List Char} {r : RE} {n : Nat}
    {st en : Nat} {cp : Caps} (hs : reSearch ic s r = some (st, en, cp))
    (hb : mustBind n r = true) : (cp.lookup n).isSome = true :=
  searchFrom_bind ic s r n (s.length + 1) 0 st en cp hs hb

/-- Captures of every `findAllFrom` match satisfy `CapsP`. -/
lemma findAllFrom_caps (ic : Bool) (s : List Char) (r : RE) (n : Nat) (cs : List Char) :
    ∀ (f : Nat) (i : Nat) (cp : Caps),
      cp ∈ findAllFrom ic s r f i → grpsOKb n cs r = true → CapsP ic n cs cp := by
  intro f
  induction f with
  | zero =>
    intro i cp hmem _
    rw [findAllFrom_zero] at hmem
    exact absurd hmem (List.not_mem_nil cp)
  | succ f ih =>
    intro i cp hmem hg
    rw [findAllFrom_succ] at hmem
    cases hsr : searchFrom ic s r (s.length + 1 - i) i with
    | some v =>
      obtain ⟨st, en, cp0⟩ := v
      rw [hsr] at hmem
      rcases List.mem_cons.mp hmem with h | h
      · subst h
        exact searchFrom_caps ic s r n cs _ i st en cp hsr hg
      · exact ih _ cp h hg
    | none =>
      rw [hsr] at hmem
      exact absurd hmem (List.not_mem_nil cp)

/-- Every `findAllFrom` match binds group `n` when the pattern must bind it. -/
lemma findAllFrom_bind (ic : Bool) (s : List Char) (r : RE) (n : Nat) :
    ∀ (f : Nat) (i : Nat) (cp : Caps),
      cp ∈ findAllFrom ic s r f i → mustBind n r = true →
      (cp.lookup n).isSome = true := by
  intro f
  induction f with
  | zero =>
    intro i cp hmem _
    rw [findAllFrom_zero] at hmem
    exact absurd hmem (List.not_mem_nil cp)
  | succ f ih =>
    intro i cp hmem hb
    rw [findAllFrom_succ] at hmem
    cases hsr : searchFrom ic s r (s.length + 1 - i) i with
    | some v =>
      obtain ⟨st, en, cp0⟩ := v
      rw [hsr] at hmem
      rcases List.mem_cons.mp hmem with h | h
      · subst h
        exact searchFrom_bind ic s r n _ i st en cp hsr hb
      · exact ih _ cp h hb
    | none =>
      rw [hsr] at hmem
      exact absurd hmem (List.not_mem_nil cp)

/-- Captures of every `reFindAll` match satisfy `CapsP`. -/
lemma reFindAll_caps {ic : Bool} {s : List Char} {r : RE} {n : Nat} {cs : List Char}
    {cp : Caps} (hmem : cp ∈ reFindAll ic s r) (hg : grpsOKb n cs r = true) :
    CapsP ic n cs cp :=
  findAllFrom_caps ic s r n cs (s.length + 2) 0 cp hmem hg

/-- Every `reFindAll` match binds group `n` when the pattern must bind it. -/
lemma reFindAll_bind {ic : Bool} {s : List Char} {r : RE} {n : Nat}
    {cp : Caps} (hmem : cp ∈ reFindAll ic s r) (hb : mustBind n r = true) :
    (cp.lookup n).isSome = true :=
  findAllFrom_bind ic s r n (s.length + 2) 0 cp hmem hb

/-- Membership in the class `[A-D]` under IGNORECASE means one of the
eight concrete letters. -/
lemma inCls_abcd {c : Char} (h : inCls true c "ABCD".data = true) : Abcd c := by
  have hd : "ABCD".data = ['A', 'B', 'C', 'D'] := rfl
  rw [hd] at h
  simp only [inCls, List.any_cons, List.any_nil, Bool.or_eq_true, chMatch,
    Bool.true_and, beq_iff_eq, Bool.or_false] at h
  have s1 : swapCase 'A' = 'a' := by decide
  have s2 : swapCase 'B' = 'b' := by decide
  have s3 : swapCase 'C' = 'c' := by decide
  have s4 : swapCase 'D' = 'd' := by decide
  rw [s1, s2, s3, s4] at h
  unfold Abcd
  tauto

/-- A bound group-1 capture of a `[A-D]`-classed pattern is one of the
eight letters. -/
lemma getGrp_abcd {cp : Caps} (hb : (cp.lookup 1).isSome = true)
    (hc : CapsP true 1 "ABCD".data cp) :
    ∃ c, getGrp 1 cp = [c] ∧ Abcd c := by
  cases hv : cp.lookup 1 with
  | none => rw [hv] at hb; simp at hb
  | some v =>
    obtain ⟨c, hvc, hcls⟩ := hc v hv
    exact ⟨c, by simp [getGrp, hv, hvc], inCls_abcd hcls⟩

/-- Every option string built by `_extract_options` is
`letter :: ')' :: ' ' :: text` with the letter among the eight
case variants of A–D. -/
lemma extract_options_mem {block o : List Char} (h : o ∈ extract_options block) :
    ∃ c t, o = c :: ')' :: ' ' :: t ∧ Abcd c := by
  unfold extract_options at h
  split_ifs at h with h1 h2
  · obtain ⟨cp, hcp, rfl⟩ := List.mem_map.mp h
    have hb := reFindAll_bind hcp (by decide : mustBind 1 optP1 = true)
    have hc := reFindAll_caps hcp (by decide : grpsOKb 1 "ABCD".data optP1 = true)
    obtain ⟨c, hg, hab⟩ := getGrp_abcd hb hc
    exact ⟨c, pyStrip (getGrp 2 cp), by simp [fmtOpt, hg], hab⟩
  · obtain ⟨cp, hcp, rfl⟩ := List.mem_map.mp h
    have hb := reFindAll_bind hcp (by decide : mustBind 1 optP2 = true)
    have hc := reFindAll_caps hcp (by decide : grpsOKb 1 "ABCD".data optP2 = true)
    obtain ⟨c, hg, hab⟩ := getGrp_abcd hb hc
    exact ⟨c, pyStrip (getGrp 2 cp), by simp [fmtOpt, hg], hab⟩
  · exact absurd h (List.not_mem_nil o)

/-- With a non-empty options list, `_extract_correct_answer` always
returns a non-empty string. -/
lemma extract_correct_answer_cons (block o : List Char) (rest : List (List Char)) :
    ∃ c t, extract_correct_answer block (o :: rest) = some (c :: t) := by
  unfold extract_correct_answer
  cases hm : correctMarker block with
  | none => exact ⟨o.headD '?', [], rfl⟩
  | some v =>
    cases v with
    | nil => exact ⟨o.headD '?', [], rfl⟩
    | cons c t => exact ⟨c, t, rfl⟩

/-- A successful marker search yields `some [c]` for an upper-case
letter `c` of A–D, or `some []` when the group went unbound (which the
binding lemma rules out); with a well-shaped first option the final
answer is a single A–D letter up to case. -/
lemma extract_correct_answer_abcd {block : List Char} {c0 : Char} {t0 : List Char}
    (rest : List (List Char)) (habcd0 : Abcd c0) :
    ∃ c, extract_correct_answer block ((c0 :: t0) :: rest) = some [c] ∧ Abcd c := by
  unfold extract_correct_answer correctMarker
  have habcdU : ∀ c : Char, Abcd c → Abcd c.toUpper ∧ pyStrip [c] = [c] := by
    intro c hc
    rcases hc with h|h|h|h|h|h|h|h <;> subst h <;> exact ⟨by decide, by decide⟩
  cases h1 : reSearch true block corrP1 with
  | some v =>
    obtain ⟨st, en, cp⟩ := v
    have hb := reSearch_bind h1 (by decide : mustBind 1 corrP1 = true)
    have hc := reSearch_caps h1 (by decide : grpsOKb 1 "ABCD".data corrP1 = true)
    obtain ⟨c, hg, hab⟩ := getGrp_abcd hb hc
    obtain ⟨hU, hS⟩ := habcdU c hab
    exact ⟨c.toUpper, by simp [hg, hS], hU⟩
  | none =>
    cases h2 : reSearch true block corrP2 with
    | some v =>
      obtain ⟨st, en, cp⟩ := v
      have hb := reSearch_bind h2 (by decide : mustBind 1 corrP2 = true)
      have hc := reSearch_caps h2 (by decide : grpsOKb 1 "ABCD".data corrP2 = true)
      obtain ⟨c, hg, hab⟩ := getGrp_abcd hb hc
      obtain ⟨hU, hS⟩ := habcdU c hab
      exact ⟨c.toUpper, by simp [hg, hS], hU⟩
    | none =>
      cases h3 : reSearch true block corrP3 with
      | some v =>
        obtain ⟨st, en, cp⟩ := v
        have hb := reSearch_bind h3 (by decide : mustBind 1 corrP3 = true)
        have hc := reSearch_caps h3 (by decide : grpsOKb 1 "ABCD".data corrP3 = true)
        obtain ⟨c, hg, hab⟩ := getGrp_abcd hb hc
        obtain ⟨hU, hS⟩ := habcdU c hab
        exact ⟨c.toUpper, by simp [hg, hS], hU⟩
      | none => exact ⟨c0, rfl, habcd0⟩

/-- The validation-and-completion step always yields exactly 4 options. -/
lemma validate_length (options : List (List Char)) :
    (validate_and_complete_options options).length = 4 := by
  unfold validate_and_complete_options padOptions
  simp only [List.length_take, List.length_append, List.length_map, List.length_drop,
    List.length_range]
  omega

/-- `_parse_single_question` succeeds exactly when the question text is
non-empty and at least two options were extracted. -/
lemma parse_single_isSome (block : List Char) :
    (parse_single_question block).isSome = true ↔
      (extract_question_text block ≠ [] ∧ 2 ≤ (extract_options block).length) := by
  unfold parse_single_question
  generalize extract_question_text block = qt
  generalize extract_options block = opts
  by_cases h1 : qt = []
  · rw [if_pos h1]
    simp only [Option.isSome_none, Bool.false_eq_true, false_iff]
    intro hcon
    exact hcon.1 h1
  · rw [if_neg h1]
    by_cases h2 : opts.length < 2
    · rw [if_pos h2]
      simp only [Option.isSome_none, Bool.false_eq_true, false_iff]
      intro hcon
      omega
    · rw [if_neg h2]
      simp only [Option.isSome_some, true_iff]
      exact ⟨h1, by omega⟩

/-- Field equations for a record produced by `_parse_single_question`. -/
lemma parse_single_eq {block : List Char} {q : ParsedQuestion}
    (h : parse_single_question block = some q) :
    q.question = extract_question_text block ∧
    q.options = validate_and_complete_options (extract_options block) ∧
    2 ≤ (extract_options block).length ∧
    q.correct_answer = answerDefault (extract_correct_answer block (extract_options block)) ∧
    q.explanation = extract_explanation block := by
  unfold parse_single_question at h
  generalize hqt : extract_question_text block = qt at h ⊢
  generalize hopts : extract_options block = opts at h ⊢
  generalize hca : extract_correct_answer block opts = ca at h ⊢
  generalize hex : extract_explanation block = ex at h ⊢
  split at h
  next => exact Option.noConfusion h
  next h1 =>
    split at h
    next => exact Option.noConfusion h
    next h2 =>
      cases h
      exact ⟨rfl, rfl, by omega, rfl, rfl⟩

/-- `parseStep` on an unparsable block keeps the accumulator. -/
lemma parseStep_none {b : List Char} (qs : List ParsedQuestion)
    (hp : parse_single_question b = none) : parseStep qs b = qs := by
  unfold parseStep
  rw [hp]

/-- `parseStep` on a duplicate question keeps the accumulator. -/
lemma parseStep_some_dup {b : List Char} {pq : ParsedQuestion} (qs : List ParsedQuestion)
    (hp : parse_single_question b = some pq)
    (hdup : (qs.any fun q => q.question == pq.question) = true) :
    parseStep qs b = qs := by
  unfold parseStep
  rw [hp]
  simp [hdup]

/-- `parseStep` appends a newly parsed, non-duplicate record. -/
lemma parseStep_some_new {b : List Char} {pq : ParsedQuestion} (qs : List ParsedQuestion)
    (hp : parse_single_question b = some pq)
    (hdup : ¬ (qs.any fun q => q.question == pq.question) = true) :
    parseStep qs b = qs ++ [pq] := by
  unfold parseStep
  rw [hp]
  simp [hdup]

/-- Every record in the assembled output comes from a block. -/
lemma foldl_parseStep_mem :
    ∀ (blocks : List (List Char)) (qs : List ParsedQuestion) (q : ParsedQuestion),
      q ∈ blocks.foldl parseStep qs →
      q ∈ qs ∨ ∃ b, b ∈ blocks ∧ parse_single_question b = some q := by
  intro blocks
  induction blocks with
  | nil => intro qs q h; exact Or.inl h
  | cons b bs ih =>
    intro qs q h
    rw [List.foldl_cons] at h
    rcases ih (parseStep qs b) q h with h1 | ⟨b', hb', hq'⟩
    · cases hp : parse_single_question b with
      | none => rw [parseStep_none qs hp] at h1; exact Or.inl h1
      | some pq =>
        by_cases hdup : (qs.any fun q => q.question == pq.question) = true
        · rw [parseStep_some_dup qs hp hdup] at h1
          exact Or.inl h1
        · rw [parseStep_some_new qs hp hdup] at h1
          rcases List.mem_append.mp h1 with h2 | h2
          · exact Or.inl h2
          · have hq : q = pq := by simpa using h2
            subst hq
            exact Or.inr ⟨b, List.mem_cons_self b bs, hp⟩
    · exact Or.inr ⟨b', List.mem_cons_of_mem b hb', hq'⟩

/-- The assembly loop keeps question texts pairwise distinct. -/
lemma foldl_parseStep_pairwise :
    ∀ (blocks : List (List Char)) (qs : List ParsedQuestion),
      qs.Pairwise (fun a b => a.question ≠ b.question) →
      (blocks.foldl parseStep qs).Pairwise (fun a b => a.question ≠ b.question) := by
  intro blocks
  induction blocks with
  | nil => intro qs h; exact h
  | cons b bs ih =>
    intro qs h
    rw [List.foldl_cons]
    refine ih (parseStep qs b) ?_
    cases hp : parse_single_question b with
    | none => rw [parseStep_none qs hp]; exact h
    | some pq =>
      by_cases hdup : (qs.any fun q => q.question == pq.question) = true
      · rw [parseStep_some_dup qs hp hdup]; exact h
      · rw [parseStep_some_new qs hp hdup]
        refine List.pairwise_append.mpr ⟨h, List.pairwise_singleton _ _, ?_⟩
        intro a ha b' hb'
        have hb2 : b' = pq := by simpa using hb'
        subst hb2
        intro heq
        apply hdup
        exact List.any_eq_true.mpr ⟨a, ha, by simp [heq]⟩

/-- The assembly loop extends its accumulator by a sublist of the
per-block parse results, in order. -/
lemma foldl_parseStep_sublist :
    ∀ (blocks : List (List Char)) (qs : List ParsedQuestion),
      ∃ t, blocks.foldl parseStep qs = qs ++ t ∧
        t.Sublist (blocks.filterMap parse_single_question) := by
  intro blocks
  induction blocks with
  | nil => intro qs; exact ⟨[], by simp, by simp⟩
  | cons b bs ih =>
    intro qs
    rw [List.foldl_cons]
    cases hp : parse_single_question b with
    | none =>
      obtain ⟨t, ht, hs⟩ := ih qs
      rw [parseStep_none qs hp]
      refine ⟨t, ht, ?_⟩
      rw [List.filterMap_cons_none hp]
      exact hs
    | some pq =>
      by_cases hdup : (qs.any fun q => q.question == pq.question) = true
      · obtain ⟨t, ht, hs⟩ := ih qs
        rw [parseStep_some_dup qs hp hdup]
        refine ⟨t, ht, ?_⟩
        rw [List.filterMap_cons_some hp]
        exact hs.cons pq
      · obtain ⟨t, ht, hs⟩ := ih (qs ++ [pq])
        rw [parseStep_some_new qs hp hdup]
        refine ⟨pq :: t, by rw [ht]; simp, ?_⟩
        rw [List.filterMap_cons_some hp]
        exact List.Sublist.cons₂ pq hs

/-- Folding the assembly step over blocks that all fail to parse keeps
the accumulator. -/
lemma foldl_parseStep_all_none :
    ∀ (blocks : List (List Char)) (qs : List ParsedQuestion),
      (∀ b ∈ blocks, parse_single_question b = none) →
      blocks.foldl parseStep qs = qs := by
  intro blocks
  induction blocks with
  | nil => intro qs _; rfl
  | cons b bs ih =>
    intro qs h
    rw [List.foldl_cons, parseStep_none qs (h b (List.mem_cons_self b bs))]
    exact ih qs (fun b' hb' => h b' (List.mem_cons_of_mem b hb'))

/-- C2: `parse_questions_from_text` is total by construction in this
embedding (it is a Lean function); on the empty string it returns the
empty list, both without an expected count and with any positive
expected count (the positional fallback then produces `k` empty blocks,
each of which fails validation). -/
theorem c2_empty_never_raises :
    parse_questions_from_text [] none = [] ∧
    ∀ k : Nat, 0 < k → parse_questions_from_text [] (some k) = [] := by
  constructor
  · decide
  · intro k hk
    unfold parse_questions_from_text
    have hblocks : extract_question_blocks [] (some k) = List.replicate k [] := by
      unfold extract_question_blocks
      rw [if_neg (by decide), if_neg (by decide)]
      show (if k ≠ 0 then (List.range k).map (fallbackSlice [] k) else []) = List.replicate k []
      rw [if_pos (by omega : k ≠ 0)]
      have hsl : fallbackSlice [] k = fun _ => ([] : List Char) := by
        funext i
        simp [fallbackSlice]
      rw [hsl]
      simp
    rw [hblocks]
    refine foldl_parseStep_all_none (List.replicate k []) [] ?_
    intro b hb
    have hbe : b = [] := List.eq_of_mem_replicate hb
    subst hbe
    decide

/-- C2 witness: the theorem instantiated at `k = 5`. -/
theorem c2_empty_never_raises_witness :
    parse_questions_from_text [] (some 5) = [] :=
  c2_empty_never_raises.2 5 (by decide)

/-- Accepted records survive the deduplication step. -/
lemma dedupStep_sub {qs : List ParsedQuestion} {pq q : ParsedQuestion} (h : q ∈ qs) :
    q ∈ dedupStep qs pq := by
  unfold dedupStep
  split_ifs
  · exact h
  · exact List.mem_append.mpr (Or.inl h)

/-- The assembly loop over blocks is the deduplication loop over the
per-block parse results. -/
lemma foldl_parseStep_eq_dedup :
    ∀ (blocks : List (List Char)) (qs : List ParsedQuestion),
      blocks.foldl parseStep qs =
        (blocks.filterMap parse_single_question).foldl dedupStep qs := by
  intro blocks
  induction blocks with
  | nil => intro qs; rfl
  | cons b bs ih =>
    intro qs
    rw [List.foldl_cons]
    cases hp : parse_single_question b with
    | none =>
      rw [parseStep_none qs hp, List.filterMap_cons_none hp]
      exact ih qs
    | some pq =>
      rw [List.filterMap_cons_some hp, List.foldl_cons]
      have hps : parseStep qs b = dedupStep qs pq := by
        unfold parseStep dedupStep
        rw [hp]
      rw [hps]
      exact ih (dedupStep qs pq)

/-- Every record surviving the deduplication loop is the first record of
the input list carrying its question text (unless it was already in the
accumulator). -/
lemma dedup_find_aux :
    ∀ (L : List ParsedQuestion) (qs : List ParsedQuestion) (q : ParsedQuestion),
      q ∈ L.foldl dedupStep qs →
      q ∈ qs ∨ ((L.find? (fun p => p.question == q.question)) = some q ∧
        ∀ q' ∈ qs, q'.question ≠ q.question) := by
  intro L
  induction L with
  | nil => intro qs q h; exact Or.inl h
  | cons p rest ih =>
    intro qs q h
    rw [List.foldl_cons] at h
    rcases ih (dedupStep qs p) q h with h1 | ⟨hfind, hne⟩
    · unfold dedupStep at h1
      by_cases hdup : (qs.any fun q0 => q0.question == p.question) = true
      · rw [if_pos hdup] at h1
        exact Or.inl h1
      · rw [if_neg hdup] at h1
        rcases List.mem_append.mp h1 with h2 | h2
        · exact Or.inl h2
        · have hq : q = p := by simpa using h2
          subst hq
          refine Or.inr ⟨?_, ?_⟩
          · exact List.find?_cons_of_pos rest (by simp)
          · intro q' hq' heq
            apply hdup
            exact List.any_eq_true.mpr ⟨q', hq', by simp [heq]⟩
    · have hqs_sub : ∀ q' ∈ qs, q' ∈ dedupStep qs p := fun q' h' => dedupStep_sub h'
      have hpn : p.question ≠ q.question := by
        by_cases hdup : (qs.any fun q0 => q0.question == p.question) = true
        · obtain ⟨q0, hq0, hbe⟩ := List.any_eq_true.mp hdup
          have hq0e : q0.question = p.question := by simpa using hbe
          have h3 := hne q0 (hqs_sub q0 hq0)
          rw [hq0e] at h3
          exact h3
        · have hp_mem : p ∈ dedupStep qs p := by
            unfold dedupStep
            rw [if_neg hdup]
            exact List.mem_append.mpr (Or.inr (by simp))
          exact hne p hp_mem
      refine Or.inr ⟨?_, fun q' hq' => hne q' (hqs_sub q' hq')⟩
      rw [List.find?_cons_of_neg rest (by simp [hpn])]
      exact hfind

/-- Every input record's question text is represented in the output of
the deduplication loop. -/
lemma dedup_complete_aux :
    ∀ (L : List ParsedQuestion) (qs : List ParsedQuestion) (p : ParsedQuestion),
      (p ∈ L ∨ p ∈ qs) →
      ∃ q ∈ L.foldl dedupStep qs, q.question = p.question := by
  intro L
  induction L with
  | nil =>
    intro qs p h
    rcases h with h | h
    · exact absurd h (List.not_mem_nil p)
    · exact ⟨p, h, rfl⟩
  | cons p0 rest ih =>
    intro qs p h
    rw [List.foldl_cons]
    rcases h with h | h
    · rcases List.mem_cons.mp h with rfl | h1
      · by_cases hdup : (qs.any fun q0 => q0.question == p.question) = true
        · obtain ⟨q0, hq0, hbe⟩ := List.any_eq_true.mp hdup
          have hq0e : q0.question = p.question := by simpa using hbe
          obtain ⟨q, hqmem, hqe⟩ := ih (dedupStep qs p) q0 (Or.inr (dedupStep_sub hq0))
          exact ⟨q, hqmem, by rw [hqe, hq0e]⟩
        · have hp_mem : p ∈ dedupStep qs p := by
            unfold dedupStep
            rw [if_neg hdup]
            exact List.mem_append.mpr (Or.inr (by simp))
          exact ih (dedupStep qs p) p (Or.inr hp_mem)
      · exact ih (dedupStep qs p0) p (Or.inl h1)
    · exact ih (dedupStep qs p0) p (Or.inr (dedupStep_sub h))

/-- C3: in every parse result the question texts are pairwise distinct;
the result is, in order, a sublist of the per-block parse results, so
original block order is preserved; every returned record is the *first*
per-block parse result carrying its question text (`find?` returns the
first hit), so the first occurrence is kept; every parsed block's
question text is represented; and on two identically-questioned blocks
with different options, the first block's record survives. -/
theorem c3_dedup_invariant (text : List Char) (expected_count : Option Nat) :
    (parse_questions_from_text text expected_count).Pairwise
      (fun a b => a.question ≠ b.question) ∧
    (parse_questions_from_text text expected_count).Sublist
      ((extract_question_blocks text expected_count).filterMap parse_single_question) ∧
    (∀ q ∈ parse_questions_from_text text expected_count,
      ((extract_question_blocks text expected_count).filterMap parse_single_question).find?
        (fun p => p.question == q.question) = some q) ∧
    (∀ p ∈ (extract_question_blocks text expected_count).filterMap parse_single_question,
      ∃ q ∈ parse_questions_from_text text expected_count, q.question = p.question) ∧
    parse_questions_from_text "1. Q?\nA) a1\nB) b1\n2. Q?\nA) a2\nB) b2".data none =
      [⟨"Q?".data,
        ["A) a1".data, "B) b1".data, "C) [Missing option]".data, "D) [Missing option]".data],
        "A".data, []⟩] := by
  refine ⟨?_, ?_, ?_, ?_, by decide⟩
  · exact foldl_parseStep_pairwise (extract_question_blocks text expected_count) []
      (List.Pairwise.nil)
  · obtain ⟨t, ht, hs⟩ :=
      foldl_parseStep_sublist (extract_question_blocks text expected_count) []
    unfold parse_questions_from_text
    rw [ht]
    simp only [List.nil_append]
    exact hs
  · intro q hq
    unfold parse_questions_from_text at hq
    rw [foldl_parseStep_eq_dedup] at hq
    rcases dedup_find_aux
        ((extract_question_blocks text expected_count).filterMap parse_single_question)
        [] q hq with h | ⟨hfind, _⟩
    · exact absurd h (List.not_mem_nil q)
    · exact hfind
  · intro p hp
    obtain ⟨q, hqmem, hqe⟩ := dedup_complete_aux
      ((extract_question_blocks text expected_count).filterMap parse_single_question)
      [] p (Or.inl hp)
    refine ⟨q, ?_, hqe⟩
    unfold parse_questions_from_text
    rw [foldl_parseStep_eq_dedup]
    exact hqmem

/-- C4: a block yields a `ParsedQuestion` exactly when its extracted
question text is non-empty and at least two options were extracted; in
particular the one-option input `1. Question: Why?\nA) Only option`
parses to the empty list. -/
theorem c4_block_acceptance :
    (∀ block : List Char,
      (parse_single_question block).isSome = true ↔
        (extract_question_text block ≠ [] ∧ 2 ≤ (extract_options block).length)) ∧
    parse_questions_from_text "1. Question: Why?\nA) Only option".data none = [] := by
  exact ⟨parse_single_isSome, by decide⟩

/-- C6: when both header patterns find nothing and a positive
`expected_count = k` is supplied for a non-empty text, the fallback
produces exactly `k` raw blocks, the `i`-th being the equal-length slice
of the text extended 100 characters each way and clamped to its bounds. -/
theorem c6_fallback_blocks (text : List Char) (k : Nat)
    (h1 : reFindAll false text pattern1 = [])
    (h2 : reFindAll false text pattern2 = [])
    (hk : 0 < k) (_htext : text ≠ []) :
    (extract_question_blocks text (some k)).length = k ∧
    ∀ i, i < k →
      (extract_question_blocks text (some k)).getD i [] =
        (text.drop (i * (text.length / k) - 100)).take
          (min text.length ((i + 1) * (text.length / k) + 100) -
            (i * (text.length / k) - 100)) := by
  have hblocks : extract_question_blocks text (some k) =
      (List.range k).map (fallbackSlice text k) := by
    unfold extract_question_blocks
    rw [if_neg (by rw [h1]; simp), if_neg (by rw [h2]; simp)]
    show (if k ≠ 0 then (List.range k).map (fallbackSlice text k) else []) =
      (List.range k).map (fallbackSlice text k)
    rw [if_pos (by omega : k ≠ 0)]
  constructor
  · rw [hblocks]
    simp
  · intro i hi
    rw [hblocks]
    have hget : ((List.range k).map (fallbackSlice text k)).get? i =
        some (fallbackSlice text k i) := by
      rw [List.get?_map, List.get?_range hi]
      rfl
    rw [List.getD_eq_get?, hget]
    rfl

/-- C6 witness: prose with no headers, `k = 2`. -/
theorem c6_fallback_blocks_witness :
    (extract_question_blocks "plain prose words".data (some 2)).length = 2 ∧
    ∀ i, i < 2 →
      (extract_question_blocks "plain prose words".data (some 2)).getD i [] =
        ("plain prose words".data.drop (i * ("plain prose words".data.length / 2) - 100)).take
          (min "plain prose words".data.length
            ((i + 1) * ("plain prose words".data.length / 2) + 100) -
            (i * ("plain prose words".data.length / 2) - 100)) :=
  c6_fallback_blocks "plain prose words".data 2 (by decide) (by decide) (by decide) (by decide)

/-- C7: if none of the three correct-answer markers matches in a block
from which at least one option was extracted, the extracted correct
answer is the label character of the first extracted option. -/
theorem c7_default_answer (block : List Char) (c : Char) (t : List Char)
    (rest : List (List Char))
    (hmark : correctMarker block = none)
    (hopts : extract_options block = (c :: t) :: rest) :
    extract_correct_answer block (extract_options block) = some [c] := by
  rw [hopts]
  unfold extract_correct_answer
  rw [hmark]
  rfl

/-- C7 witness: a block with options `A) x`, `B) y` and no marker. -/
theorem c7_default_answer_witness :
    extract_correct_answer "A) x\nB) y".data
      (extract_options "A) x\nB) y".data) = some ['A'] :=
  c7_default_answer "A) x\nB) y".data 'A' ") x".data ["B) y".data] (by decide) (by decide)

/-- C9 counterexample: the claim says the first-line fallback is
rejected whenever the line begins with a letter A–D followed by `)` or
`.`; but for `B. beta\nC. gamma` the primary pattern finds no match,
the first line begins with `B.`, and the fallback is nevertheless
accepted, yielding question text `B. beta`. -/
theorem c9_counterexample :
    reSearch true "B. beta\nC. gamma".data qPattern = none ∧
    extract_question_text "B. beta\nC. gamma".data = "B. beta".data ∧
    "B. beta".data ≠ [] := by
  refine ⟨by decide, by decide, by decide⟩

/-- C9 (amended): when the primary question-span pattern finds no match,
the first-line fallback is rejected exactly on the four literal prefixes
`A)`, `B)`, `C)`, `D)` of the stripped first line (uppercase letter
immediately followed by a right parenthesis); then no question text is
produced. -/
theorem c9_fallback_rejection (block : List Char)
    (hsearch : reSearch true block qPattern = none)
    (hstart : startsOptMarker (firstLineOf block) = true) :
    extract_question_text block = [] := by
  unfold extract_question_text
  rw [hsearch]
  have h1 : ¬ (firstLineOf block ≠ [] ∧ ¬ (startsOptMarker (firstLineOf block) = true)) := by
    intro hcon
    exact hcon.2 hstart
  show cleanQuestion
    (if firstLineOf block ≠ [] ∧ ¬ (startsOptMarker (firstLineOf block) = true) then
      firstLineOf block else []) = []
  rw [if_neg h1]
  decide

/-- C9 witness: a block whose first line is `B) x`. -/
theorem c9_fallback_rejection_witness :
    extract_question_text "B) x\nC) y".data = [] :=
  c9_fallback_rejection "B) x\nC) y".data (by decide) (by decide)

/-- C1 counterexample: extracted options keep the label and order in
which the source supplied them; for `1. Why?\nB) x\nA) y` the output
labels are `B, A, C, D`, not `A, B, C, D`. -/
theorem c1_counterexample :
    ((parse_questions_from_text "1. Why?\nB) x\nA) y".data none).map
      (fun q => q.options.map (fun o => o.headD '?'))) = [['B', 'A', 'C', 'D']] ∧
    ¬ ((parse_questions_from_text "1. Why?\nB) x\nA) y".data none).map
      (fun q => q.options.map (fun o => o.headD '?'))) = [['A', 'B', 'C', 'D']] := by
  refine ⟨by decide, by decide⟩

/-- C1 (amended): every returned `ParsedQuestion` has exactly four
options; extracted options keep their source label and order, and only
the padded placeholders are labelled positionally, so the labels need
not read `A, B, C, D`. -/
theorem c1_options_length (text : List Char) (expected_count : Option Nat)
    (q : ParsedQuestion) (hq : q ∈ parse_questions_from_text text expected_count) :
    q.options.length = 4 := by
  rcases foldl_parseStep_mem (extract_question_blocks text expected_count) [] q hq with
    h | ⟨b, _, hp⟩
  · exact absurd h (List.not_mem_nil q)
  · obtain ⟨_, ho, _, _, _⟩ := parse_single_eq hp
    rw [ho]
    exact validate_length (extract_options b)

/-- C1 witness: the amended theorem at a concrete parse. -/
theorem c1_options_length_witness :
    ((parse_questions_from_text "1. Q?\nA) x\nB) y".data none).headD
      ⟨[], [], [], []⟩).options.length = 4 :=
  c1_options_length "1. Q?\nA) x\nB) y".data none _ (by decide)

/-- C5 counterexample: with lowercase option labels `a)`, `b)` and no
answer marker, the default path copies the first option's label verbatim
and the returned `correct_answer` is the lowercase `a`, not one of the
uppercase letters A–D. -/
theorem c5_counterexample :
    ((parse_questions_from_text "1. What?\na) x\nb) y".data none).map
      (fun q => q.correct_answer)) = [['a']] ∧
    ¬ (['a'] = ['A'] ∨ ['a'] = ['B'] ∨ ['a'] = ['C'] ∨ ['a'] = ['D']) := by
  refine ⟨by decide, by decide⟩

/-- C5 (amended): every returned `correct_answer` is a single letter
among A–D up to case: uppercase when an explicit marker was found (and
when the `"A"` default fires), but the marker-free default copies the
first option's label as written, which may be lowercase. -/
theorem c5_correct_answer_letter (text : List Char) (expected_count : Option Nat)
    (q : ParsedQuestion) (hq : q ∈ parse_questions_from_text text expected_count) :
    ∃ c, q.correct_answer = [c] ∧ Abcd c := by
  rcases foldl_parseStep_mem (extract_question_blocks text expected_count) [] q hq with
    h | ⟨b, _, hp⟩
  · exact absurd h (List.not_mem_nil q)
  · obtain ⟨_, _, hlen, hca, _⟩ := parse_single_eq hp
    cases hopts : extract_options b with
    | nil => rw [hopts] at hlen; simp at hlen
    | cons o rest =>
      have ho : o ∈ extract_options b := by rw [hopts]; exact List.mem_cons_self o rest
      obtain ⟨c0, t0, hoe, hab0⟩ := extract_options_mem ho
      subst hoe
      obtain ⟨c, hce, habc⟩ := extract_correct_answer_abcd rest hab0
      rw [hopts] at hca
      rw [hce] at hca
      exact ⟨c, by rw [hca]; rfl, habc⟩

/-- C5 witness: the amended theorem at a concrete parse. -/
theorem c5_correct_answer_letter_witness :
    ∃ c, ((parse_questions_from_text "1. Q?\nA) x\nB) y".data none).headD
      ⟨[], [], [], []⟩).correct_answer = [c] ∧ Abcd c :=
  c5_correct_answer_letter "1. Q?\nA) x\nB) y".data none _ (by decide)

set_option maxHeartbeats 1000000 in
/-- Unfolding `modelsStep` through the named helpers of the utils
pipeline (definitional: the two files contain the same expressions). -/
lemma modelsStep_unfold (qs : List ParsedQuestion) (block : List Char) :
    modelsStep qs block =
      (if extract_question_text block = [] then qs
       else
         if 2 ≤ (extract_options block).length ∧ extract_question_text block ≠ [] then
           (if (qs.any fun q => q.question == extract_question_text block) = true then qs
            else qs ++ [⟨extract_question_text block,
              validate_and_complete_options (extract_options block),
              (extract_correct_answer block (extract_options block)).getD [],
              extract_explanation block⟩])
         else qs) := rfl

/-- One step of the models loop equals one step of the utils loop. -/
lemma modelsStep_eq (qs : List ParsedQuestion) (block : List Char) :
    modelsStep qs block = parseStep qs block := by
  rw [modelsStep_unfold]
  have hiff := parse_single_isSome block
  cases hp : parse_single_question block with
  | none =>
    rw [parseStep_none qs hp]
    rw [hp] at hiff
    simp only [Option.isSome_none, Bool.false_eq_true, false_iff] at hiff
    by_cases hq : extract_question_text block = []
    · rw [if_pos hq]
    · rw [if_neg hq]
      have h2 : ¬ (2 ≤ (extract_options block).length ∧ extract_question_text block ≠ []) := by
        intro hcon
        exact hiff ⟨hcon.2, hcon.1⟩
      rw [if_neg h2]
  | some pq =>
    rw [hp] at hiff
    simp only [Option.isSome_some, true_iff] at hiff
    obtain ⟨hfq, hfo, hflen, hfca, hfex⟩ := parse_single_eq hp
    rw [if_neg hiff.1, if_pos ⟨hiff.2, hiff.1⟩]
    have hrec : (⟨extract_question_text block,
        validate_and_complete_options (extract_options block),
        (extract_correct_answer block (extract_options block)).getD [],
        extract_explanation block⟩ : ParsedQuestion) = pq := by
      cases hopts : extract_options block with
      | nil => rw [hopts] at hflen; simp at hflen
      | cons o rest =>
        obtain ⟨c, t, hcac⟩ := extract_correct_answer_cons block o rest
        have hgd : (extract_correct_answer block (o :: rest)).getD [] =
            answerDefault (extract_correct_answer block (o :: rest)) := by
          rw [hcac]
          rfl
        rw [hgd, ← hopts, ← hfq, ← hfo, ← hfca, ← hfex]
    rw [hrec, ← hfq]
    by_cases hdup : (qs.any fun q => q.question == pq.question) = true
    · rw [parseStep_some_dup qs hp hdup, if_pos hdup]
    · rw [parseStep_some_new qs hp hdup, if_neg hdup]

/-- C10: the two `parse_questions_from_text` implementations, in
`src/models/parser.py` and `src/utils/parser.py`, are extensionally
equal: identical output on every text and expected count. -/
theorem c10_models_equals_utils (text : List Char) (expected_count : Option Nat) :
    parse_questions_from_text_models text expected_count =
      parse_questions_from_text text expected_count := by
  have hstep : modelsStep = parseStep :=
    funext fun qs => funext fun b => modelsStep_eq qs b
  show (extract_question_blocks text expected_count).foldl modelsStep [] =
    parse_questions_from_text text expected_count
  rw [hstep]
  rfl

/-- C8: the canonical scenario content of spec §8 (scenarios 1–2),
rendered in any of the three header styles (`1.`, `#1`, `Question 1:`)
combined with either option delimiter style (`)` or `.`), parses to the
identical single record: same question text, same (relabelled) options
text, same correct answer, same explanation. -/
theorem c8_format_invariance (h : HeaderStyle) (d : DelimStyle) :
    parse_questions_from_text (renderScenario h d) none =
      [⟨"Sky color?".data,
        ["A) Red".data, "B) Blue".data, "C) [Missing option]".data,
         "D) [Missing option]".data],
        "B".data, "Soot.".data⟩] := by
  cases h <;> cases d <;> decide
